import Mathlib

/-!
Verification of the VolumeSelect mesh-selection core (`VolumeSelect.py`,
class `LS_OT_select_by_ranges`, method `execute`): connected-component
extraction over the vertex/edge graph, world-space bounding-box volume per
component, first-match-wins range matching, and per-granularity selection
masks.

Vertices are natural-number identities; coordinates are rationals; the
world transform is the affine part of a 4x4 matrix.  Selection masks are
boolean functions over vertex ids, edge indices and face indices.
-/

namespace VolumeSelect

/-! ## Data model -/

/-- A 3-component vector (models `mathutils.Vector` coordinates). -/
structure Vec3 where
  x : ℚ
  y : ℚ
  z : ℚ
deriving DecidableEq

/-- The affine part of `obj.matrix_world`: a 3x3 linear block plus a
translation column. -/
structure Mat4 where
  xx : ℚ
  xy : ℚ
  xz : ℚ
  xw : ℚ
  yx : ℚ
  yy : ℚ
  yz : ℚ
  yw : ℚ
  zx : ℚ
  zy : ℚ
  zz : ℚ
  zw : ℚ
deriving DecidableEq

/-- `obj.matrix_world @ v.co`: apply the affine transform to a point. -/
def matApply (M : Mat4) (v : Vec3) : Vec3 :=
  ⟨M.xx * v.x + M.xy * v.y + M.xz * v.z + M.xw,
   M.yx * v.x + M.yy * v.y + M.yz * v.z + M.yw,
   M.zx * v.x + M.zy * v.y + M.zz * v.z + M.zw⟩

/-- Mesh topology snapshot: vertex ids (`bm.verts`), edges as id pairs
(`bm.edges`, each edge's `e.verts`), faces as id lists (`bm.faces`, each
face's `f.verts`). -/
structure Mesh where
  verts : List Nat
  edges : List (Nat × Nat)
  faces : List (List Nat)

/-! ## Component extraction (lines 190-204 of `execute`) -/

/-- `u` is reached from `v` by one edge of `E` in either orientation: the
iteration `for e in v.link_edges: u = e.other_vert(v)` yields exactly the
vertices `u` with `isAdj E v u = true`. -/
def isAdj (E : List (Nat × Nat)) (v u : Nat) : Bool :=
  E.any fun p => (decide (p.1 = v) && decide (p.2 = u)) || (decide (p.1 = u) && decide (p.2 = v))

/-- Propositional form of edge adjacency. -/
def adjP (E : List (Nat × Nat)) (v u : Nat) : Prop := isAdj E v u = true

/-- The inner traversal loop (lines 196-203): pop a vertex `v` from the
stack, move every still-unvisited neighbour of `v` out of `unvis`, onto the
stack and into the component, and repeat until the stack empties.  Returns
the grown component together with the remaining unvisited vertices. -/
def walk (E : List (Nat × Nat)) : List Nat → List Nat → List Nat → List Nat × List Nat
  | [], unvis, comp => (comp, unvis)
  | v :: stack, unvis, comp =>
      walk E (unvis.filter (fun u => isAdj E v u) ++ stack)
             (unvis.filter (fun u => !isAdj E v u))
             (comp ++ unvis.filter (fun u => isAdj E v u))
termination_by s u _ => s.length + u.length
decreasing_by
  have h := @List.length_eq_length_filter_add _ unvis (fun u => isAdj E v u)
  simp only [List.length_append, List.length_cons]
  omega

/-- The outer loop (lines 190-204), with explicit fuel: while vertices
remain unvisited, pop a seed and walk its component.  Each round consumes
at least the seed, so fuel `|V|` always suffices (see `extract`). -/
def extractFuel (E : List (Nat × Nat)) : Nat → List Nat → List (List Nat)
  | 0, _ => []
  | _, [] => []
  | n + 1, v :: rest =>
      (walk E [v] rest [v]).1 :: extractFuel E n (walk E [v] rest [v]).2

/-- Component extraction: partition the vertex list into connected
components, exactly the `parts` list built by lines 190-204. -/
def extract (E : List (Nat × Nat)) (V : List Nat) : List (List Nat) :=
  extractFuel E V.length V

/-- One step of a path that stays inside the vertex set `W`. -/
def stepIn (E : List (Nat × Nat)) (W : List Nat) (a b : Nat) : Prop :=
  adjP E a b ∧ b ∈ W

/-- Reachability along edges of `E` through vertices of `W`. -/
def reachIn (E : List (Nat × Nat)) (W : List Nat) : Nat → Nat → Prop :=
  Relation.ReflTransGen (stepIn E W)

/-- Two vertices sit in a common extracted component. -/
def sameComp (E : List (Nat × Nat)) (V : List Nat) (x y : Nat) : Prop :=
  ∃ c ∈ extract E V, x ∈ c ∧ y ∈ c

/-! ## Bounding-box volume (lines 206-217) -/

/-- Python `min` over a list of rationals (`0` is a junk value for the empty
list, which the source never reaches because components are non-empty). -/
def qmin : List ℚ → ℚ
  | [] => 0
  | a :: t => t.foldl min a

/-- Python `max` over a list of rationals. -/
def qmax : List ℚ → ℚ
  | [] => 0
  | a :: t => t.foldl max a

/-- Lines 208-217: map the component's vertices to world space, take the
componentwise min/max corner, and return `abs(size.x * size.y * size.z)`. -/
def compVolume (M : Mat4) (co : Nat → Vec3) (comp : List Nat) : ℚ :=
  let ws := comp.map (fun v => matApply M (co v))
  let sx := qmax (ws.map Vec3.x) - qmin (ws.map Vec3.x)
  let sy := qmax (ws.map Vec3.y) - qmin (ws.map Vec3.y)
  let sz := qmax (ws.map Vec3.z) - qmin (ws.map Vec3.z)
  |sx * sy * sz|

/-! ## Threshold ranges and matching (lines 174-178 and 228-238) -/

/-- One threshold range (`LS_ThresholdItem`): optional min/max bounds plus a
display-only label. -/
structure RangeSpec where
  use_min : Bool
  min_value : ℚ
  use_max : Bool
  max_value : ℚ
  label : String

/-- Lines 174-178: reduce each item to a `(vmin?, vmax?)` pair, dropping the
label. -/
def buildRanges (items : List RangeSpec) : List (Option ℚ × Option ℚ) :=
  items.map (fun it => (if it.use_min then some it.min_value else none,
                        if it.use_max then some it.max_value else none))

/-- `vmin is not None and vol < vmin` (line 231). -/
def belowMin (vmin : Option ℚ) (vol : ℚ) : Bool :=
  match vmin with
  | some m => decide (vol < m)
  | none => false

/-- `vmax is not None and vol > vmax` (line 233). -/
def aboveMax (vmax : Option ℚ) (vol : ℚ) : Bool :=
  match vmax with
  | some m => decide (m < vol)
  | none => false

/-- The first-match-wins loop of lines 229-236: scan ranges in order, skip
on a failing enabled bound (`continue`), stop with success otherwise
(`matched = True; break`); running out of ranges means no match. -/
def matchRanges : List (Option ℚ × Option ℚ) → ℚ → Bool
  | [], _ => false
  | (vmin, vmax) :: rest, vol =>
    if belowMin vmin vol then matchRanges rest vol
    else if aboveMax vmax vol then matchRanges rest vol
    else true

/-- Modelled from the spec: the implicit claim compares first-match-wins
with "checking whether any range in the list matches"; this is that
existential any-match evaluation, written from the spec's words rather
than from the source. -/
def anyMatch (R : List (Option ℚ × Option ℚ)) (vol : ℚ) : Bool :=
  R.any fun r => !belowMin r.1 vol && !aboveMax r.2 vol

/-! ## Selection masks (lines 219-250) -/

/-- Selection masks over vertex ids, edge indices and face indices. -/
structure SelState where
  selV : Nat → Bool
  selE : Nat → Bool
  selF : Nat → Bool

/-- Lines 219-225: for each enabled granularity, deselect every element of
the mesh. -/
def clearSel (mesh : Mesh) (uv ue uf : Bool) (st : SelState) : SelState :=
  { selV := fun x => if uv = true ∧ x ∈ mesh.verts then false else st.selV x
    selE := fun i => if ue = true ∧ i < mesh.edges.length then false else st.selE i
    selF := fun j => if uf = true ∧ j < mesh.faces.length then false else st.selF j }

/-- Lines 242-245: the loop over `v.link_edges` for `v` in `comp` touches an
edge iff one of its endpoints is in `comp`; the edge is then selected iff
`e.verts[0] in comp and e.verts[1] in comp`. -/
def edgeBothIn (comp : List Nat) (e : Nat × Nat) : Bool :=
  (decide (e.1 ∈ comp) || decide (e.2 ∈ comp)) && decide (e.1 ∈ comp) && decide (e.2 ∈ comp)

/-- Lines 240-250: mark the elements of one matched component, per enabled
granularity.  Marking only ever sets flags to `True`, so it is an `or` with
the previous mask. -/
def applyComp (mesh : Mesh) (uv ue uf : Bool) (comp : List Nat) (st : SelState) : SelState :=
  { selV := fun x => st.selV x || (uv && decide (x ∈ comp))
    selE := fun i => st.selE i ||
      (ue && decide (i < mesh.edges.length) && edgeBothIn comp (mesh.edges.getD i (0, 0)))
    selF := fun j => st.selF j ||
      (uf && decide (j < mesh.faces.length) &&
        (mesh.faces.getD j []).all (fun v => decide (v ∈ comp))) }

/-- Lines 228-250: zip components with their volumes and mark every
component matched by the range list. -/
def selectComps (mesh : Mesh) (M : Mat4) (co : Nat → Vec3)
    (R : List (Option ℚ × Option ℚ)) (uv ue uf : Bool)
    (parts : List (List Nat)) (st : SelState) : SelState :=
  (parts.zip (parts.map (compVolume M co))).foldl
    (fun st cv => if matchRanges R cv.2 then applyComp mesh uv ue uf cv.1 st else st) st

/-- The whole selection core of `LS_OT_select_by_ranges.execute`: build the
range pairs, extract components, clear the enabled masks and then select
the matching components. -/
def execute (mesh : Mesh) (M : Mat4) (co : Nat → Vec3) (items : List RangeSpec)
    (uv ue uf : Bool) (st : SelState) : SelState :=
  selectComps mesh M co (buildRanges items) uv ue uf
    (extract mesh.edges mesh.verts) (clearSel mesh uv ue uf st)

/-- Modelled from the spec: `selectComps` with the matcher replaced by the
existential any-match evaluation. -/
def selectCompsAny (mesh : Mesh) (M : Mat4) (co : Nat → Vec3)
    (R : List (Option ℚ × Option ℚ)) (uv ue uf : Bool)
    (parts : List (List Nat)) (st : SelState) : SelState :=
  (parts.zip (parts.map (compVolume M co))).foldl
    (fun st cv => if anyMatch R cv.2 then applyComp mesh uv ue uf cv.1 st else st) st

/-- Modelled from the spec: `execute` with any-match in place of
first-match-wins. -/
def executeAny (mesh : Mesh) (M : Mat4) (co : Nat → Vec3) (items : List RangeSpec)
    (uv ue uf : Bool) (st : SelState) : SelState :=
  selectCompsAny mesh M co (buildRanges items) uv ue uf
    (extract mesh.edges mesh.verts) (clearSel mesh uv ue uf st)

/-! ## Concrete fixtures for witnesses -/

/-- Uniform world scale by 2 (the spec's cube scenario). -/
def cubeM : Mat4 := ⟨2, 0, 0, 0, 0, 2, 0, 0, 0, 0, 2, 0⟩

/-- The 8 corners of the local unit cube, indexed by bits of the id. -/
def cubeCo : Nat → Vec3 := fun n =>
  ⟨if n % 2 = 1 then 1 else 0, if n / 2 % 2 = 1 then 1 else 0, if n / 4 % 2 = 1 then 1 else 0⟩

/-- Vertex ids of the cube component. -/
def cubeComp : List Nat := [0, 1, 2, 3, 4, 5, 6, 7]

/-- Identity world transform. -/
def idM : Mat4 := ⟨1, 0, 0, 0, 0, 1, 0, 0, 0, 0, 1, 0⟩

/-- All vertices at the origin. -/
def zeroCo : Nat → Vec3 := fun _ => ⟨0, 0, 0⟩

/-- A small mesh: one edge joining vertices 0 and 1, one isolated vertex 2,
one face. -/
def demoMesh : Mesh := ⟨[0, 1, 2], [(0, 1)], [[0, 1]]⟩

/-- A single range with both bounds disabled. -/
def demoItems : List RangeSpec := [⟨false, 0, false, 0, "A"⟩]

/-- The everything-selected prior state. -/
def stTrue : SelState := ⟨fun _ => true, fun _ => true, fun _ => true⟩

/-- The nothing-selected prior state. -/
def stFalse : SelState := ⟨fun _ => false, fun _ => false, fun _ => false⟩

/-! ## Traversal invariants -/

theorem walk_snd_subset (E : List (Nat × Nat)) (s u c : List Nat) :
    ∀ x ∈ (walk E s u c).2, x ∈ u := by
  induction s, u, c using walk.induct E with
  | case1 u c => simp [walk]
  | case2 v stack u c ih =>
    intro x hx
    rw [walk] at hx
    exact List.mem_of_mem_filter (ih x hx)

theorem walk_snd_length_le (E : List (Nat × Nat)) (s u c : List Nat) :
    (walk E s u c).2.length ≤ u.length := by
  induction s, u, c using walk.induct E with
  | case1 u c => simp [walk]
  | case2 v stack u c ih =>
    rw [walk]
    exact le_trans ih (List.length_filter_le _ _)

/-- The central invariant of the inner traversal: starting from a stack
contained in the component, with unvisited vertices disjoint from the
component and all fully-processed component vertices having no unvisited
neighbours, the walk moves exactly the component's closure out of `unvis`,
preserves `Nodup`, leaves no adjacency between the final component and the
final unvisited set, and only adds vertices reachable from the seed. -/
theorem walk_spec (E : List (Nat × Nat)) (W : List Nat) (r0 : Nat)
    (s u c : List Nat) (hu : u.Nodup) (hc : c.Nodup)
    (hdisj : ∀ x ∈ u, x ∉ c)
    (hsc : ∀ x ∈ s, x ∈ c)
    (hproc : ∀ y ∈ c, y ∉ s → ∀ x ∈ u, ¬ adjP E y x)
    (hW : ∀ x ∈ u, x ∈ W)
    (hreach : ∀ x ∈ c, reachIn E W r0 x) :
    (∀ x, x ∈ (walk E s u c).1 ↔ x ∈ c ∨ (x ∈ u ∧ x ∉ (walk E s u c).2)) ∧
    (walk E s u c).2.Nodup ∧
    (walk E s u c).1.Nodup ∧
    (∀ y ∈ (walk E s u c).1, ∀ x ∈ (walk E s u c).2, ¬ adjP E y x) ∧
    (∀ x ∈ (walk E s u c).1, reachIn E W r0 x) := by
  induction s, u, c using walk.induct E with
  | case1 u c =>
    rw [walk]
    refine ⟨fun x => ?_, hu, hc, ?_, hreach⟩
    · constructor
      · exact fun h => Or.inl h
      · rintro (h | ⟨h1, h2⟩)
        · exact h
        · exact absurd h1 h2
    · intro y hy x hx
      exact hproc y hy (by simp) x hx
  | case2 v stack u c ih =>
    rw [walk]
    have hvmem : v ∈ c := hsc v (by simp)
    have hu' : (u.filter (fun x => !isAdj E v x)).Nodup := hu.filter _
    have hcns : (c ++ u.filter (fun x => isAdj E v x)).Nodup := by
      refine List.Nodup.append hc (hu.filter _) ?_
      intro a hac hans
      exact hdisj a (List.mem_of_mem_filter hans) hac
    have hdisj' : ∀ x ∈ u.filter (fun x => !isAdj E v x),
        x ∉ c ++ u.filter (fun x => isAdj E v x) := by
      intro x hx
      have hxu : x ∈ u := List.mem_of_mem_filter hx
      have hxna := List.of_mem_filter hx
      simp only [List.mem_append]
      rintro (h | h)
      · exact hdisj x hxu h
      · have := List.of_mem_filter h
        simp [this] at hxna
    have hsc' : ∀ x ∈ u.filter (fun x => isAdj E v x) ++ stack,
        x ∈ c ++ u.filter (fun x => isAdj E v x) := by
      intro x hx
      rcases List.mem_append.1 hx with h | h
      · exact List.mem_append.2 (Or.inr h)
      · exact List.mem_append.2 (Or.inl (hsc x (by simp [h])))
    have hproc' : ∀ y ∈ c ++ u.filter (fun x => isAdj E v x),
        y ∉ u.filter (fun x => isAdj E v x) ++ stack →
        ∀ x ∈ u.filter (fun x => !isAdj E v x), ¬ adjP E y x := by
      intro y hy hyn x hx
      have hxu : x ∈ u := List.mem_of_mem_filter hx
      have hxna := List.of_mem_filter hx
      rcases List.mem_append.1 hy with hyc | hyns
      · by_cases hyv : y = v
        · subst hyv
          intro had
          rw [adjP] at had
          simp [had] at hxna
        · have hyns2 : y ∉ stack := fun hs => hyn (List.mem_append.2 (Or.inr hs))
          exact hproc y hyc (by simp [hyv, hyns2]) x hxu
      · exact absurd (List.mem_append.2 (Or.inl hyns)) hyn
    have hW' : ∀ x ∈ u.filter (fun x => !isAdj E v x), x ∈ W :=
      fun x hx => hW x (List.mem_of_mem_filter hx)
    have hreach' : ∀ x ∈ c ++ u.filter (fun x => isAdj E v x), reachIn E W r0 x := by
      intro x hx
      rcases List.mem_append.1 hx with h | h
      · exact hreach x h
      · have hxa : isAdj E v x = true := List.of_mem_filter h
        have hxu : x ∈ u := List.mem_of_mem_filter h
        exact Relation.ReflTransGen.tail (hreach v hvmem) ⟨hxa, hW x hxu⟩
    obtain ⟨i1, i2, i3, i4, i5⟩ := ih hu' hcns hdisj' hsc' hproc' hW' hreach'
    have hsub : ∀ x ∈ (walk E (u.filter (fun x => isAdj E v x) ++ stack)
        (u.filter (fun x => !isAdj E v x)) (c ++ u.filter (fun x => isAdj E v x))).2,
        x ∈ u.filter (fun x => !isAdj E v x) := walk_snd_subset E _ _ _
    refine ⟨fun x => ?_, i2, i3, i4, i5⟩
    rw [i1 x]
    constructor
    · rintro (h | ⟨h1, h2⟩)
      · rcases List.mem_append.1 h with h | h
        · exact Or.inl h
        · refine Or.inr ⟨List.mem_of_mem_filter h, fun hx2 => ?_⟩
          have := List.of_mem_filter (hsub x hx2)
          have h2 := List.of_mem_filter h
          simp [h2] at this
      · exact Or.inr ⟨List.mem_of_mem_filter h1, h2⟩
    · rintro (h | ⟨h1, h2⟩)
      · exact Or.inl (List.mem_append.2 (Or.inl h))
      · by_cases ha : isAdj E v x = true
        · exact Or.inl (List.mem_append.2 (Or.inr (List.mem_filter.2 ⟨h1, ha⟩)))
        · exact Or.inr ⟨List.mem_filter.2 ⟨h1, by simp [ha]⟩, h2⟩

theorem adjP_symm {E : List (Nat × Nat)} {v u : Nat} (h : adjP E v u) : adjP E u v := by
  rw [adjP, isAdj, List.any_eq_true] at h ⊢
  obtain ⟨p, hp, hpp⟩ := h
  refine ⟨p, hp, ?_⟩
  revert hpp
  simp only [Bool.or_eq_true, Bool.and_eq_true, decide_eq_true_eq]
  tauto

theorem reachIn_mono_adj {E : List (Nat × Nat)} {W : List Nat} {a b : Nat}
    (h : reachIn E W a b) : Relation.ReflTransGen (adjP E) a b :=
  Relation.ReflTransGen.mono (fun _ _ hp => hp.1) h

theorem rtg_adj_symm {E : List (Nat × Nat)} {a b : Nat}
    (h : Relation.ReflTransGen (adjP E) a b) : Relation.ReflTransGen (adjP E) b a :=
  Relation.ReflTransGen.symmetric (fun _ _ hp => adjP_symm hp) h

/-- Full specification of component extraction with fuel: the components
cover the vertex list, are non-empty, duplicate-free, internally connected,
and pairwise disjoint with no adjacency across two different components. -/
theorem extractFuel_spec (E : List (Nat × Nat)) :
    ∀ (n : Nat) (V : List Nat), V.length ≤ n → V.Nodup →
    ((∀ x, x ∈ V ↔ ∃ c ∈ extractFuel E n V, x ∈ c) ∧
     (∀ c ∈ extractFuel E n V, c ≠ [] ∧ c.Nodup ∧ (∀ x ∈ c, x ∈ V) ∧
        (∀ x ∈ c, ∀ y ∈ c, Relation.ReflTransGen (adjP E) x y)) ∧
     List.Pairwise (fun c d => ∀ x ∈ c, ∀ y ∈ d, x ≠ y ∧ ¬ adjP E x y) (extractFuel E n V)) := by
  intro n
  induction n with
  | zero =>
    intro V hlen _
    have hV : V = [] := List.eq_nil_of_length_eq_zero (Nat.le_zero.1 hlen)
    subst hV
    refine ⟨by simp [extractFuel], by simp [extractFuel], by simp [extractFuel]⟩
  | succ n ih =>
    intro V hlen hnd
    match V with
    | [] =>
      refine ⟨by simp [extractFuel], by simp [extractFuel], by simp [extractFuel]⟩
    | v :: rest =>
      have hndr : rest.Nodup := hnd.of_cons
      have hvr : v ∉ rest := by
        have := List.nodup_cons.1 hnd
        exact this.1
      obtain ⟨w1, w2, w3, w4, w5⟩ :=
        walk_spec E (v :: rest) v [v] rest [v] hndr (by simp)
          (by intro x hx; simp; intro he; exact hvr (he ▸ hx))
          (by simp)
          (by intro y hy hyn; simp at hy; simp [hy] at hyn)
          (by intro x hx; simp [hx])
          (by intro x hx; simp at hx; subst hx; exact Relation.ReflTransGen.refl)
      have hsub : ∀ x ∈ (walk E [v] rest [v]).2, x ∈ rest := walk_snd_subset E _ _ _
      have hlen2 : (walk E [v] rest [v]).2.length ≤ n := by
        have := walk_snd_length_le E [v] rest [v]
        simp at hlen
        omega
      obtain ⟨c1, c2, c3⟩ := ih (walk E [v] rest [v]).2 hlen2 w2
      have hmem1 : ∀ x, x ∈ (walk E [v] rest [v]).1 ↔
          x = v ∨ (x ∈ rest ∧ x ∉ (walk E [v] rest [v]).2) := by
        intro x
        rw [w1 x]
        simp
      have hvc : v ∈ (walk E [v] rest [v]).1 := (hmem1 v).2 (Or.inl rfl)
      have hEF : extractFuel E (n + 1) (v :: rest) =
          (walk E [v] rest [v]).1 :: extractFuel E n (walk E [v] rest [v]).2 := rfl
      rw [hEF]
      refine ⟨?_, ?_, ?_⟩
      · intro x
        simp only [List.mem_cons]
        constructor
        · rintro (h | h)
          · exact ⟨(walk E [v] rest [v]).1, Or.inl rfl, (hmem1 x).2 (Or.inl h)⟩
          · by_cases h2 : x ∈ (walk E [v] rest [v]).2
            · obtain ⟨d, hd, hxd⟩ := (c1 x).1 h2
              exact ⟨d, Or.inr hd, hxd⟩
            · exact ⟨(walk E [v] rest [v]).1, Or.inl rfl, (hmem1 x).2 (Or.inr ⟨h, h2⟩)⟩
        · rintro ⟨d, hd | hd, hxd⟩
          · subst hd
            rcases (hmem1 x).1 hxd with h | h
            · exact Or.inl h
            · exact Or.inr h.1
          · have : x ∈ (walk E [v] rest [v]).2 := (c2 d hd).2.2.1 x hxd
            exact Or.inr (hsub x this)
      · intro c hc
        rcases List.mem_cons.1 hc with h | h
        · subst h
          refine ⟨List.ne_nil_of_mem hvc, w3, ?_, ?_⟩
          · intro x hx
            rcases (hmem1 x).1 hx with h | h
            · simp [h]
            · simp [h.1]
          · intro x hx y hy
            exact Relation.ReflTransGen.trans
              (rtg_adj_symm (reachIn_mono_adj (w5 x hx)))
              (reachIn_mono_adj (w5 y hy))
        · obtain ⟨hne, hnd2, hsub2, hconn⟩ := c2 c h
          exact ⟨hne, hnd2, fun x hx => List.mem_cons.2 (Or.inr (hsub x (hsub2 x hx))), hconn⟩
      · rw [List.pairwise_cons]
        refine ⟨?_, c3⟩
        intro d hd x hx y hy
        have hy2 : y ∈ (walk E [v] rest [v]).2 := (c2 d hd).2.2.1 y hy
        constructor
        · intro he
          subst he
          rcases (hmem1 x).1 hx with h | h
          · subst h
            exact hvr (hsub x hy2)
          · exact h.2 hy2
        · exact w4 x hx y hy2

/-- Specification of `extract` itself. -/
theorem extract_spec (E : List (Nat × Nat)) (V : List Nat) (hnd : V.Nodup) :
    ((∀ x, x ∈ V ↔ ∃ c ∈ extract E V, x ∈ c) ∧
     (∀ c ∈ extract E V, c ≠ [] ∧ c.Nodup ∧ (∀ x ∈ c, x ∈ V) ∧
        (∀ x ∈ c, ∀ y ∈ c, Relation.ReflTransGen (adjP E) x y)) ∧
     List.Pairwise (fun c d => ∀ x ∈ c, ∀ y ∈ d, x ≠ y ∧ ¬ adjP E x y) (extract E V)) :=
  extractFuel_spec E V.length V le_rfl hnd

/-! ## Components as reachability classes -/

theorem crossSymm (E : List (Nat × Nat)) :
    Symmetric (fun c d : List Nat => ∀ x ∈ c, ∀ y ∈ d, x ≠ y ∧ ¬ adjP E x y) := by
  intro c d h x hx y hy
  obtain ⟨h1, h2⟩ := h y hy x hx
  exact ⟨h1.symm, fun ha => h2 (adjP_symm ha)⟩

theorem comp_unique {E : List (Nat × Nat)} {V : List Nat} (hnd : V.Nodup)
    {c d : List Nat} {x : Nat} (hc : c ∈ extract E V) (hd : d ∈ extract E V)
    (hxc : x ∈ c) (hxd : x ∈ d) : c = d := by
  by_contra hne
  have hpw := (extract_spec E V hnd).2.2
  exact ((List.Pairwise.forall (crossSymm E) hpw hc hd hne) x hxc x hxd).1 rfl

theorem adjP_mem_right {E : List (Nat × Nat)} {V : List Nat}
    (hE : ∀ p ∈ E, p.1 ∈ V ∧ p.2 ∈ V) {a b : Nat} (h : adjP E a b) : b ∈ V := by
  rw [adjP, isAdj, List.any_eq_true] at h
  obtain ⟨p, hp, hpp⟩ := h
  have hv := hE p hp
  revert hpp
  simp only [Bool.or_eq_true, Bool.and_eq_true, decide_eq_true_eq]
  rintro (⟨h1, h2⟩ | ⟨h1, h2⟩)
  · rw [← h2]; exact hv.2
  · rw [← h1]; exact hv.1

/-- A component is closed under adjacency reachability inside the mesh. -/
theorem mem_comp_of_reach {E : List (Nat × Nat)} {V : List Nat} (hnd : V.Nodup)
    (hE : ∀ p ∈ E, p.1 ∈ V ∧ p.2 ∈ V) {c : List Nat} (hc : c ∈ extract E V)
    {x : Nat} (hx : x ∈ c) :
    ∀ z, Relation.ReflTransGen (adjP E) x z → z ∈ c := by
  intro z hz
  induction hz with
  | refl => exact hx
  | @tail b z _ hbz ih =>
    have hzV : z ∈ V := adjP_mem_right hE hbz
    obtain ⟨d, hd, hzd⟩ := ((extract_spec E V hnd).1 z).1 hzV
    have hcd : c = d := by
      by_contra hne
      have hpw := (extract_spec E V hnd).2.2
      exact ((List.Pairwise.forall (crossSymm E) hpw hc hd hne) b ih z hzd).2 hbz
    rw [hcd]
    exact hzd

/-- Being in a common extracted component is exactly joint membership in
`V` plus edge-adjacency reachability. -/
theorem sameComp_iff {E : List (Nat × Nat)} {V : List Nat} (hnd : V.Nodup)
    (hE : ∀ p ∈ E, p.1 ∈ V ∧ p.2 ∈ V) (x y : Nat) :
    sameComp E V x y ↔ x ∈ V ∧ Relation.ReflTransGen (adjP E) x y := by
  constructor
  · rintro ⟨c, hc, hxc, hyc⟩
    obtain ⟨_, _, hsub, hconn⟩ := (extract_spec E V hnd).2.1 c hc
    exact ⟨hsub x hxc, hconn x hxc y hyc⟩
  · rintro ⟨hxV, hreach⟩
    obtain ⟨c, hc, hxc⟩ := ((extract_spec E V hnd).1 x).1 hxV
    exact ⟨c, hc, hxc, mem_comp_of_reach hnd hE hc hxc y hreach⟩

theorem mem_iff_sameComp {E : List (Nat × Nat)} {V : List Nat} (hnd : V.Nodup)
    {c : List Nat} (hc : c ∈ extract E V) {x : Nat} (hxc : x ∈ c) (y : Nat) :
    y ∈ c ↔ sameComp E V x y := by
  constructor
  · intro hy
    exact ⟨c, hc, hxc, hy⟩
  · rintro ⟨d, hd, hxd, hyd⟩
    rw [comp_unique hnd hc hd hxc hxd]
    exact hyd

/-- Reordering the vertex list yields components with identical
membership. -/
theorem comp_transfer {E : List (Nat × Nat)} {V V' : List Nat}
    (hnd : V.Nodup) (hnd' : V'.Nodup)
    (hE : ∀ p ∈ E, p.1 ∈ V ∧ p.2 ∈ V)
    (hVV' : ∀ x, x ∈ V ↔ x ∈ V')
    {c : List Nat} (hc : c ∈ extract E V) :
    ∃ c' ∈ extract E V', ∀ y, y ∈ c ↔ y ∈ c' := by
  have hE' : ∀ p ∈ E, p.1 ∈ V' ∧ p.2 ∈ V' := by
    intro p hp
    obtain ⟨h1, h2⟩ := hE p hp
    exact ⟨(hVV' p.1).1 h1, (hVV' p.2).1 h2⟩
  obtain ⟨hne, _, hsub, _⟩ := (extract_spec E V hnd).2.1 c hc
  obtain ⟨x, hx⟩ := List.exists_mem_of_ne_nil c hne
  have hxV' : x ∈ V' := (hVV' x).1 (hsub x hx)
  obtain ⟨c', hc', hxc'⟩ := ((extract_spec E V' hnd').1 x).1 hxV'
  refine ⟨c', hc', fun y => ?_⟩
  rw [mem_iff_sameComp hnd hc hx y, mem_iff_sameComp hnd' hc' hxc' y,
    sameComp_iff hnd hE, sameComp_iff hnd' hE']
  rw [hVV' x]

theorem adjP_of_mem {E : List (Nat × Nat)} {p : Nat × Nat} (hp : p ∈ E) :
    adjP E p.1 p.2 := by
  rw [adjP, isAdj, List.any_eq_true]
  exact ⟨p, hp, by simp⟩

/-! ## Min/max and volume lemmas -/

theorem foldl_min_bound : ∀ (t : List ℚ) (a : ℚ),
    t.foldl min a ≤ a ∧ ∀ x ∈ t, t.foldl min a ≤ x := by
  intro t
  induction t with
  | nil => intro a; simp
  | cons b t ih =>
    intro a
    obtain ⟨h1, h2⟩ := ih (min a b)
    simp only [List.foldl_cons]
    refine ⟨le_trans h1 (min_le_left a b), ?_⟩
    intro x hx
    rcases List.mem_cons.1 hx with h | h
    · rw [h]
      exact le_trans h1 (min_le_right a b)
    · exact h2 x h

theorem foldl_min_mem : ∀ (t : List ℚ) (a : ℚ), t.foldl min a = a ∨ t.foldl min a ∈ t := by
  intro t
  induction t with
  | nil => intro a; simp
  | cons b t ih =>
    intro a
    rcases ih (min a b) with h | h
    · rcases min_choice a b with h2 | h2
      · rw [List.foldl_cons, h, h2]; exact Or.inl rfl
      · rw [List.foldl_cons, h, h2]; exact Or.inr (List.mem_cons_self b t)
    · exact Or.inr (List.mem_cons_of_mem b h)

theorem qmin_mem {l : List ℚ} (h : l ≠ []) : qmin l ∈ l := by
  match l with
  | a :: t =>
    rw [qmin]
    rcases foldl_min_mem t a with h2 | h2
    · rw [h2]
      exact List.mem_cons_self a t
    · exact List.mem_cons_of_mem a h2

theorem qmin_le {l : List ℚ} {x : ℚ} (h : x ∈ l) : qmin l ≤ x := by
  match l with
  | a :: t =>
    rw [qmin]
    rcases List.mem_cons.1 h with h2 | h2
    · exact h2 ▸ (foldl_min_bound t a).1
    · exact (foldl_min_bound t a).2 x h2

theorem foldl_max_bound : ∀ (t : List ℚ) (a : ℚ),
    a ≤ t.foldl max a ∧ ∀ x ∈ t, x ≤ t.foldl max a := by
  intro t
  induction t with
  | nil => intro a; simp
  | cons b t ih =>
    intro a
    obtain ⟨h1, h2⟩ := ih (max a b)
    simp only [List.foldl_cons]
    refine ⟨le_trans (le_max_left a b) h1, ?_⟩
    intro x hx
    rcases List.mem_cons.1 hx with h | h
    · rw [h]
      exact le_trans (le_max_right a b) h1
    · exact h2 x h

theorem foldl_max_mem : ∀ (t : List ℚ) (a : ℚ), t.foldl max a = a ∨ t.foldl max a ∈ t := by
  intro t
  induction t with
  | nil => intro a; simp
  | cons b t ih =>
    intro a
    rcases ih (max a b) with h | h
    · rcases max_choice a b with h2 | h2
      · rw [List.foldl_cons, h, h2]; exact Or.inl rfl
      · rw [List.foldl_cons, h, h2]; exact Or.inr (List.mem_cons_self b t)
    · exact Or.inr (List.mem_cons_of_mem b h)

theorem qmax_mem {l : List ℚ} (h : l ≠ []) : qmax l ∈ l := by
  match l with
  | a :: t =>
    rw [qmax]
    rcases foldl_max_mem t a with h2 | h2
    · rw [h2]
      exact List.mem_cons_self a t
    · exact List.mem_cons_of_mem a h2

theorem qmax_ge {l : List ℚ} {x : ℚ} (h : x ∈ l) : x ≤ qmax l := by
  match l with
  | a :: t =>
    rw [qmax]
    rcases List.mem_cons.1 h with h2 | h2
    · exact h2 ▸ (foldl_max_bound t a).1
    · exact (foldl_max_bound t a).2 x h2

theorem qmin_congr {l l' : List ℚ} (h : l ≠ []) (h' : l' ≠ [])
    (hm : ∀ x, x ∈ l ↔ x ∈ l') : qmin l = qmin l' :=
  le_antisymm (qmin_le ((hm _).2 (qmin_mem h'))) (qmin_le ((hm _).1 (qmin_mem h)))

theorem qmax_congr {l l' : List ℚ} (h : l ≠ []) (h' : l' ≠ [])
    (hm : ∀ x, x ∈ l ↔ x ∈ l') : qmax l = qmax l' :=
  le_antisymm (qmax_ge ((hm _).1 (qmax_mem h))) (qmax_ge ((hm _).2 (qmax_mem h')))

/-- The bounding-box volume only depends on the membership set of the
component. -/
theorem compVolume_congr (M : Mat4) (co : Nat → Vec3) {c c' : List Nat}
    (h : c ≠ []) (h' : c' ≠ []) (hm : ∀ y, y ∈ c ↔ y ∈ c') :
    compVolume M co c = compVolume M co c' := by
  have hmapne : ∀ (f : Vec3 → ℚ), (c.map (fun v => matApply M (co v))).map f ≠ [] := by
    intro f
    simp [h]
  have hmapne' : ∀ (f : Vec3 → ℚ), (c'.map (fun v => matApply M (co v))).map f ≠ [] := by
    intro f
    simp [h']
  have hmm : ∀ (f : Vec3 → ℚ) (x : ℚ),
      (x ∈ (c.map (fun v => matApply M (co v))).map f ↔
       x ∈ (c'.map (fun v => matApply M (co v))).map f) := by
    intro f x
    simp only [List.mem_map]
    constructor
    · rintro ⟨w, ⟨v, hv, rfl⟩, rfl⟩
      exact ⟨matApply M (co v), ⟨v, (hm v).1 hv, rfl⟩, rfl⟩
    · rintro ⟨w, ⟨v, hv, rfl⟩, rfl⟩
      exact ⟨matApply M (co v), ⟨v, (hm v).2 hv, rfl⟩, rfl⟩
  simp only [compVolume]
  rw [qmin_congr (hmapne _) (hmapne' _) (hmm Vec3.x),
      qmax_congr (hmapne _) (hmapne' _) (hmm Vec3.x),
      qmin_congr (hmapne _) (hmapne' _) (hmm Vec3.y),
      qmax_congr (hmapne _) (hmapne' _) (hmm Vec3.y),
      qmin_congr (hmapne _) (hmapne' _) (hmm Vec3.z),
      qmax_congr (hmapne _) (hmapne' _) (hmm Vec3.z)]

theorem qspread_const {a : ℚ} {l : List ℚ} (h : l ≠ []) (ha : ∀ x ∈ l, x = a) :
    qmax l - qmin l = 0 := by
  rw [ha (qmax l) (qmax_mem h), ha (qmin l) (qmin_mem h), sub_self]

/-! ## Matcher lemmas -/

theorem bool_eq_of_iff {a b : Bool} (h : a = true ↔ b = true) : a = b := by
  cases a <;> cases b <;> simp_all

/-- First-match-wins succeeds exactly when some range passes both of its
enabled bounds. -/
theorem matchRanges_iff : ∀ (R : List (Option ℚ × Option ℚ)) (vol : ℚ),
    (matchRanges R vol = true ↔
      ∃ r ∈ R, belowMin r.1 vol = false ∧ aboveMax r.2 vol = false) := by
  intro R
  induction R with
  | nil => intro vol; simp [matchRanges]
  | cons r rest ih =>
    intro vol
    match r with
    | (vmin, vmax) =>
      rw [matchRanges]
      by_cases h1 : belowMin vmin vol = true
      · rw [if_pos h1, ih]
        constructor
        · rintro ⟨r2, hr2, hb⟩
          exact ⟨r2, List.mem_cons_of_mem _ hr2, hb⟩
        · rintro ⟨r2, hr2, hb1, hb2⟩
          rcases List.mem_cons.1 hr2 with h | h
          · rw [h] at hb1
            simp [h1] at hb1
          · exact ⟨r2, h, hb1, hb2⟩
      · rw [if_neg h1]
        simp only [Bool.not_eq_true] at h1
        by_cases h2 : aboveMax vmax vol = true
        · rw [if_pos h2, ih]
          constructor
          · rintro ⟨r2, hr2, hb⟩
            exact ⟨r2, List.mem_cons_of_mem _ hr2, hb⟩
          · rintro ⟨r2, hr2, hb1, hb2⟩
            rcases List.mem_cons.1 hr2 with h | h
            · rw [h] at hb2
              simp [h2] at hb2
            · exact ⟨r2, h, hb1, hb2⟩
        · rw [if_neg h2]
          simp only [Bool.not_eq_true] at h2
          simp only [true_iff]
          exact ⟨(vmin, vmax), List.mem_cons_self _ _, h1, h2⟩

theorem belowMin_build (it : RangeSpec) (vol : ℚ) :
    (belowMin (if it.use_min then some it.min_value else none) vol = false ↔
      (it.use_min = true → it.min_value ≤ vol)) := by
  by_cases h : it.use_min = true
  · simp [h, belowMin, not_lt]
  · simp only [Bool.not_eq_true] at h
    simp [h, belowMin]

theorem aboveMax_build (it : RangeSpec) (vol : ℚ) :
    (aboveMax (if it.use_max then some it.max_value else none) vol = false ↔
      (it.use_max = true → vol ≤ it.max_value)) := by
  by_cases h : it.use_max = true
  · simp [h, aboveMax, not_lt]
  · simp only [Bool.not_eq_true] at h
    simp [h, aboveMax]

/-- First-match-wins over built ranges succeeds exactly when some item's
enabled bounds are satisfied inclusively. -/
theorem matchRanges_build_iff (items : List RangeSpec) (vol : ℚ) :
    (matchRanges (buildRanges items) vol = true ↔
      ∃ r ∈ items, (r.use_min = true → r.min_value ≤ vol) ∧
                   (r.use_max = true → vol ≤ r.max_value)) := by
  rw [matchRanges_iff]
  constructor
  · rintro ⟨p, hp, hb1, hb2⟩
    rw [buildRanges, List.mem_map] at hp
    obtain ⟨it, hit, rfl⟩ := hp
    exact ⟨it, hit, (belowMin_build it vol).1 hb1, (aboveMax_build it vol).1 hb2⟩
  · rintro ⟨it, hit, h1, h2⟩
    refine ⟨(if it.use_min then some it.min_value else none,
             if it.use_max then some it.max_value else none), ?_, ?_, ?_⟩
    · rw [buildRanges, List.mem_map]
      exact ⟨it, hit, rfl⟩
    · exact (belowMin_build it vol).2 h1
    · exact (aboveMax_build it vol).2 h2

theorem matchRanges_eq_anyMatch : ∀ (R : List (Option ℚ × Option ℚ)) (vol : ℚ),
    matchRanges R vol = anyMatch R vol := by
  intro R vol
  refine bool_eq_of_iff ?_
  rw [matchRanges_iff, anyMatch, List.any_eq_true]
  constructor
  · rintro ⟨r, hr, h1, h2⟩
    exact ⟨r, hr, by simp [h1, h2]⟩
  · rintro ⟨r, hr, h⟩
    simp only [Bool.and_eq_true, Bool.not_eq_true'] at h
    exact ⟨r, hr, h.1, h.2⟩

/-! ## Selection fold characterizations -/

theorem selectComps_nil (mesh : Mesh) (M : Mat4) (co : Nat → Vec3)
    (R : List (Option ℚ × Option ℚ)) (uv ue uf : Bool) (st : SelState) :
    selectComps mesh M co R uv ue uf [] st = st := rfl

theorem selectComps_cons (mesh : Mesh) (M : Mat4) (co : Nat → Vec3)
    (R : List (Option ℚ × Option ℚ)) (uv ue uf : Bool)
    (c : List Nat) (t : List (List Nat)) (st : SelState) :
    selectComps mesh M co R uv ue uf (c :: t) st =
      selectComps mesh M co R uv ue uf t
        (if matchRanges R (compVolume M co c) then applyComp mesh uv ue uf c st else st) := by
  rw [selectComps, selectComps]
  simp

theorem selectComps_selV (mesh : Mesh) (M : Mat4) (co : Nat → Vec3)
    (R : List (Option ℚ × Option ℚ)) (uv ue uf : Bool) :
    ∀ (parts : List (List Nat)) (st : SelState) (x : Nat),
    (selectComps mesh M co R uv ue uf parts st).selV x =
      (st.selV x ||
        (uv && parts.any (fun c => matchRanges R (compVolume M co c) && decide (x ∈ c)))) := by
  intro parts
  induction parts with
  | nil => intro st x; simp [selectComps_nil]
  | cons c t ih =>
    intro st x
    rw [selectComps_cons, ih]
    by_cases hm : matchRanges R (compVolume M co c) = true
    · simp [hm, applyComp, Bool.or_assoc, Bool.and_or_distrib_left]
    · simp only [Bool.not_eq_true] at hm
      simp [hm]

theorem selectComps_selE (mesh : Mesh) (M : Mat4) (co : Nat → Vec3)
    (R : List (Option ℚ × Option ℚ)) (uv ue uf : Bool) :
    ∀ (parts : List (List Nat)) (st : SelState) (i : Nat),
    (selectComps mesh M co R uv ue uf parts st).selE i =
      (st.selE i ||
        (ue && decide (i < mesh.edges.length) &&
          parts.any (fun c => matchRanges R (compVolume M co c) &&
            edgeBothIn c (mesh.edges.getD i (0, 0))))) := by
  intro parts
  induction parts with
  | nil => intro st i; simp [selectComps_nil]
  | cons c t ih =>
    intro st i
    rw [selectComps_cons, ih]
    by_cases hm : matchRanges R (compVolume M co c) = true
    · simp [hm, applyComp, Bool.or_assoc, Bool.and_or_distrib_left]
    · simp only [Bool.not_eq_true] at hm
      simp [hm]

theorem selectComps_selF (mesh : Mesh) (M : Mat4) (co : Nat → Vec3)
    (R : List (Option ℚ × Option ℚ)) (uv ue uf : Bool) :
    ∀ (parts : List (List Nat)) (st : SelState) (j : Nat),
    (selectComps mesh M co R uv ue uf parts st).selF j =
      (st.selF j ||
        (uf && decide (j < mesh.faces.length) &&
          parts.any (fun c => matchRanges R (compVolume M co c) &&
            (mesh.faces.getD j []).all (fun v => decide (v ∈ c))))) := by
  intro parts
  induction parts with
  | nil => intro st j; simp [selectComps_nil]
  | cons c t ih =>
    intro st j
    rw [selectComps_cons, ih]
    by_cases hm : matchRanges R (compVolume M co c) = true
    · simp [hm, applyComp, Bool.or_assoc, Bool.and_or_distrib_left]
    · simp only [Bool.not_eq_true] at hm
      simp [hm]

/-! ## Mask shapes of the full selection core -/

theorem execute_selV (mesh : Mesh) (M : Mat4) (co : Nat → Vec3) (items : List RangeSpec)
    (uv ue uf : Bool) (st : SelState) (x : Nat) :
    (execute mesh M co items uv ue uf st).selV x =
      ((if uv = true ∧ x ∈ mesh.verts then false else st.selV x) ||
        (uv && (extract mesh.edges mesh.verts).any
          (fun c => matchRanges (buildRanges items) (compVolume M co c) && decide (x ∈ c)))) := by
  rw [execute, selectComps_selV]
  rfl

theorem execute_selE (mesh : Mesh) (M : Mat4) (co : Nat → Vec3) (items : List RangeSpec)
    (uv ue uf : Bool) (st : SelState) (i : Nat) :
    (execute mesh M co items uv ue uf st).selE i =
      ((if ue = true ∧ i < mesh.edges.length then false else st.selE i) ||
        (ue && decide (i < mesh.edges.length) &&
          (extract mesh.edges mesh.verts).any
            (fun c => matchRanges (buildRanges items) (compVolume M co c) &&
              edgeBothIn c (mesh.edges.getD i (0, 0))))) := by
  rw [execute, selectComps_selE]
  rfl

theorem execute_selF (mesh : Mesh) (M : Mat4) (co : Nat → Vec3) (items : List RangeSpec)
    (uv ue uf : Bool) (st : SelState) (j : Nat) :
    (execute mesh M co items uv ue uf st).selF j =
      ((if uf = true ∧ j < mesh.faces.length then false else st.selF j) ||
        (uf && decide (j < mesh.faces.length) &&
          (extract mesh.edges mesh.verts).any
            (fun c => matchRanges (buildRanges items) (compVolume M co c) &&
              (mesh.faces.getD j []).all (fun v => decide (v ∈ c))))) := by
  rw [execute, selectComps_selF]
  rfl

theorem edgeBothIn_iff (comp : List Nat) (e : Nat × Nat) :
    (edgeBothIn comp e = true ↔ e.1 ∈ comp ∧ e.2 ∈ comp) := by
  rw [edgeBothIn]
  constructor
  · intro h
    simp only [Bool.and_eq_true, Bool.or_eq_true, decide_eq_true_eq] at h
    exact ⟨h.1.2, h.2⟩
  · rintro ⟨h1, h2⟩
    simp [h1, h2]

/-- The edge mask of the selection core, in existential form (shared by the
edge-granularity claims). -/
theorem execute_selE_iff (mesh : Mesh) (M : Mat4) (co : Nat → Vec3)
    (items : List RangeSpec) (uv uf : Bool) (st : SelState) (i : Nat)
    (hi : i < mesh.edges.length) :
    ((execute mesh M co items uv true uf st).selE i = true ↔
      ∃ c ∈ extract mesh.edges mesh.verts,
        matchRanges (buildRanges items) (compVolume M co c) = true ∧
        (mesh.edges.getD i (0, 0)).1 ∈ c ∧ (mesh.edges.getD i (0, 0)).2 ∈ c) := by
  rw [execute_selE]
  rw [if_pos ⟨rfl, hi⟩]
  simp only [Bool.false_or, Bool.true_and, decide_eq_true_eq, hi, decide_True,
    List.any_eq_true, Bool.and_eq_true]
  constructor
  · rintro ⟨c, hc, hm, hb⟩
    exact ⟨c, hc, hm, (edgeBothIn_iff c _).1 hb⟩
  · rintro ⟨c, hc, hm, hb⟩
    exact ⟨c, hc, hm, (edgeBothIn_iff c _).2 hb⟩

theorem getD_mem_of_lt {l : List (Nat × Nat)} {i : Nat} (h : i < l.length) :
    l.getD i (0, 0) ∈ l := by
  rw [List.getD_eq_getElem l (0, 0) h]
  exact List.getElem_mem h

/-! ## Transfer lemmas for traversal-order invariance -/

theorem selState_ext {a b : SelState} (h1 : ∀ x, a.selV x = b.selV x)
    (h2 : ∀ i, a.selE i = b.selE i) (h3 : ∀ j, a.selF j = b.selF j) : a = b := by
  cases a
  cases b
  simp only [SelState.mk.injEq]
  exact ⟨funext h1, funext h2, funext h3⟩

theorem any_comp_imp (E : List (Nat × Nat)) (V V' : List Nat)
    (hnd : V.Nodup) (hnd' : V'.Nodup)
    (hE : ∀ p ∈ E, p.1 ∈ V ∧ p.2 ∈ V)
    (hVV' : ∀ x, x ∈ V ↔ x ∈ V')
    (M : Mat4) (co : Nat → Vec3) (R : List (Option ℚ × Option ℚ))
    (g : List Nat → Bool)
    (hg : ∀ c c', (∀ y, y ∈ c ↔ y ∈ c') → g c = g c')
    (h : (extract E V).any (fun c => matchRanges R (compVolume M co c) && g c) = true) :
    (extract E V').any (fun c => matchRanges R (compVolume M co c) && g c) = true := by
  rw [List.any_eq_true] at h ⊢
  obtain ⟨c, hc, hcb⟩ := h
  obtain ⟨c', hc', hcc'⟩ := comp_transfer hnd hnd' hE hVV' hc
  have hne := ((extract_spec E V hnd).2.1 c hc).1
  have hne' := ((extract_spec E V' hnd').2.1 c' hc').1
  refine ⟨c', hc', ?_⟩
  rw [← compVolume_congr M co hne hne' hcc', ← hg c c' hcc']
  exact hcb

theorem edgeBothIn_congr {c c' : List Nat} (e : Nat × Nat)
    (h : ∀ y, y ∈ c ↔ y ∈ c') : edgeBothIn c e = edgeBothIn c' e := by
  rw [edgeBothIn, edgeBothIn,
    decide_eq_decide.mpr (h e.1), decide_eq_decide.mpr (h e.2)]

theorem faceAll_congr {c c' : List Nat} (f : List Nat)
    (h : ∀ y, y ∈ c ↔ y ∈ c') :
    f.all (fun v => decide (v ∈ c)) = f.all (fun v => decide (v ∈ c')) := by
  refine bool_eq_of_iff ?_
  simp only [List.all_eq_true, decide_eq_true_eq]
  constructor
  · intro hv v hvf
    exact (h v).1 (hv v hvf)
  · intro hv v hvf
    exact (h v).2 (hv v hvf)

/-! ## Claim theorems -/

/-- C1: for every input mesh graph, `extract` returns a partition of the
vertex set into maximal connected components: every vertex lies in exactly
one returned component (cover plus pairwise disjointness), every component
is non-empty and connected under edge adjacency, no edge has its two
endpoints in different components, and the empty vertex set yields the
empty list of components. -/
theorem extract_partition (E : List (Nat × Nat)) (V : List Nat) (hnd : V.Nodup)
    (hE : ∀ p ∈ E, p.1 ∈ V ∧ p.2 ∈ V) :
    (∀ x, x ∈ V ↔ ∃ c ∈ extract E V, x ∈ c) ∧
    List.Pairwise (fun c d => ∀ x ∈ c, x ∉ d) (extract E V) ∧
    (∀ c ∈ extract E V, c ≠ []) ∧
    (∀ c ∈ extract E V, ∀ x ∈ c, ∀ y ∈ c, Relation.ReflTransGen (adjP E) x y) ∧
    (∀ p ∈ E, ∀ c ∈ extract E V, ∀ d ∈ extract E V, p.1 ∈ c → p.2 ∈ d → c = d) ∧
    extract E ([] : List Nat) = [] := by
  obtain ⟨cover, each, pw⟩ := extract_spec E V hnd
  refine ⟨cover, ?_, fun c hc => (each c hc).1, fun c hc => (each c hc).2.2.2, ?_, rfl⟩
  · refine pw.imp ?_
    intro c d h x hxc hxd
    exact (h x hxc x hxd).1 rfl
  · intro p hp c hc d hd h1 h2
    have hreach : Relation.ReflTransGen (adjP E) p.1 p.2 :=
      Relation.ReflTransGen.single (adjP_of_mem hp)
    have h2c : p.2 ∈ c := mem_comp_of_reach hnd hE hc h1 p.2 hreach
    exact (comp_unique hnd hc hd h2c h2).symm ▸ rfl

/-- Witness for C1 at the mesh with vertices 0, 1, 2 and the single edge
(0, 1). -/
theorem extract_partition_witness :
    ([0, 1, 2] : List Nat).Nodup ∧
    (∀ p ∈ [((0 : Nat), (1 : Nat))], p.1 ∈ ([0, 1, 2] : List Nat) ∧
      p.2 ∈ ([0, 1, 2] : List Nat)) ∧
    ((∀ x, x ∈ ([0, 1, 2] : List Nat) ↔ ∃ c ∈ extract [(0, 1)] [0, 1, 2], x ∈ c) ∧
     List.Pairwise (fun c d => ∀ x ∈ c, x ∉ d) (extract [(0, 1)] [0, 1, 2]) ∧
     (∀ c ∈ extract [(0, 1)] [0, 1, 2], c ≠ []) ∧
     (∀ c ∈ extract [(0, 1)] [0, 1, 2], ∀ x ∈ c, ∀ y ∈ c,
        Relation.ReflTransGen (adjP [(0, 1)]) x y) ∧
     (∀ p ∈ [((0 : Nat), (1 : Nat))], ∀ c ∈ extract [(0, 1)] [0, 1, 2],
        ∀ d ∈ extract [(0, 1)] [0, 1, 2], p.1 ∈ c → p.2 ∈ d → c = d) ∧
     extract [(0, 1)] ([] : List Nat) = []) :=
  ⟨by decide, by decide, extract_partition [(0, 1)] [0, 1, 2] (by decide) (by decide)⟩

/-- C2: a component's volume is matched by the first-match-wins scan over
the built range list exactly when some range in the list has all its
enabled bounds satisfied inclusively; a range with both flags false matches
every volume, and the empty range list matches nothing. -/
theorem first_match_wins_spec (items : List RangeSpec) (vol : ℚ) :
    (matchRanges (buildRanges items) vol = true ↔
      ∃ r ∈ items, (r.use_min = true → r.min_value ≤ vol) ∧
                   (r.use_max = true → vol ≤ r.max_value)) ∧
    matchRanges (buildRanges []) vol = false ∧
    (∀ r : RangeSpec, r.use_min = false → r.use_max = false →
      ∀ rest : List RangeSpec, matchRanges (buildRanges (r :: rest)) vol = true) := by
  refine ⟨matchRanges_build_iff items vol, rfl, ?_⟩
  intro r h1 h2 rest
  simp [buildRanges, matchRanges, h1, h2, belowMin, aboveMax]

/-- Witness for C2 at a min-5/max-10 range and volume 8. -/
theorem first_match_wins_spec_witness :
    (matchRanges (buildRanges [⟨true, 5, true, 10, "A"⟩]) 8 = true ↔
      ∃ r ∈ [(⟨true, 5, true, 10, "A"⟩ : RangeSpec)],
        (r.use_min = true → r.min_value ≤ 8) ∧ (r.use_max = true → 8 ≤ r.max_value)) ∧
    matchRanges (buildRanges []) 8 = false ∧
    (∀ r : RangeSpec, r.use_min = false → r.use_max = false →
      ∀ rest : List RangeSpec, matchRanges (buildRanges (r :: rest)) 8 = true) :=
  first_match_wins_spec [⟨true, 5, true, 10, "A"⟩] 8

/-- C3: a non-empty component's volume is the product of the three extents
of the world-space axis-aligned bounding box; a single-vertex component has
volume 0; a component constant along some world axis (axis-aligned planar
or linear) has volume 0; and the fully connected unit cube under a uniform
world scale of 2 has volume 8. -/
theorem compVolume_spec :
    (∀ (M : Mat4) (co : Nat → Vec3) (comp : List Nat), comp ≠ [] →
       compVolume M co comp =
         (qmax ((comp.map (fun v => matApply M (co v))).map Vec3.x) -
          qmin ((comp.map (fun v => matApply M (co v))).map Vec3.x)) *
         ((qmax ((comp.map (fun v => matApply M (co v))).map Vec3.y) -
           qmin ((comp.map (fun v => matApply M (co v))).map Vec3.y)) *
          (qmax ((comp.map (fun v => matApply M (co v))).map Vec3.z) -
           qmin ((comp.map (fun v => matApply M (co v))).map Vec3.z)))) ∧
    (∀ (M : Mat4) (co : Nat → Vec3) (v : Nat), compVolume M co [v] = 0) ∧
    (∀ (M : Mat4) (co : Nat → Vec3) (comp : List Nat) (a : ℚ), comp ≠ [] →
       ((∀ v ∈ comp, (matApply M (co v)).x = a) ∨
        (∀ v ∈ comp, (matApply M (co v)).y = a) ∨
        (∀ v ∈ comp, (matApply M (co v)).z = a)) →
       compVolume M co comp = 0) ∧
    compVolume cubeM cubeCo cubeComp = 8 := by
  have hne : ∀ (M : Mat4) (co : Nat → Vec3) (comp : List Nat) (f : Vec3 → ℚ),
      comp ≠ [] → (comp.map (fun v => matApply M (co v))).map f ≠ [] := by
    intro M co comp f h
    simp [h]
  have spread_nonneg : ∀ (l : List ℚ), l ≠ [] → 0 ≤ qmax l - qmin l := by
    intro l hl
    have := qmin_le (qmax_mem hl)
    linarith
  refine ⟨?_, ?_, ?_, ?_⟩
  · intro M co comp h
    rw [compVolume]
    rw [mul_assoc]
    exact abs_of_nonneg (mul_nonneg (spread_nonneg _ (hne M co comp _ h))
      (mul_nonneg (spread_nonneg _ (hne M co comp _ h)) (spread_nonneg _ (hne M co comp _ h))))
  · intro M co v
    simp [compVolume, qmin, qmax]
  · intro M co comp a h hc
    rw [compVolume]
    rcases hc with hc | hc | hc
    · have : qmax ((comp.map (fun v => matApply M (co v))).map Vec3.x) -
          qmin ((comp.map (fun v => matApply M (co v))).map Vec3.x) = 0 := by
        refine @qspread_const a _ (hne M co comp _ h) ?_
        intro x hx
        simp only [List.map_map, List.mem_map, Function.comp] at hx
        obtain ⟨v, hv, rfl⟩ := hx
        exact hc v hv
      rw [this]
      simp
    · have : qmax ((comp.map (fun v => matApply M (co v))).map Vec3.y) -
          qmin ((comp.map (fun v => matApply M (co v))).map Vec3.y) = 0 := by
        refine @qspread_const a _ (hne M co comp _ h) ?_
        intro x hx
        simp only [List.map_map, List.mem_map, Function.comp] at hx
        obtain ⟨v, hv, rfl⟩ := hx
        exact hc v hv
      rw [this]
      simp
    · have : qmax ((comp.map (fun v => matApply M (co v))).map Vec3.z) -
          qmin ((comp.map (fun v => matApply M (co v))).map Vec3.z) = 0 := by
        refine @qspread_const a _ (hne M co comp _ h) ?_
        intro x hx
        simp only [List.map_map, List.mem_map, Function.comp] at hx
        obtain ⟨v, hv, rfl⟩ := hx
        exact hc v hv
      rw [this]
      simp
  · rw [compVolume]
    norm_num [cubeM, cubeCo, cubeComp, matApply, qmin, qmax, min_def, max_def]

/-- Witness for C3: the cube scenario evaluated. -/
theorem compVolume_spec_witness : compVolume cubeM cubeCo cubeComp = 8 :=
  compVolume_spec.2.2.2

/-- C4: with edge granularity enabled, an edge of the mesh is selected iff
both of its endpoint vertices lie in one matched component; an edge with
exactly one endpoint inside a matched component is never selected. -/
theorem edge_mask_spec (mesh : Mesh) (M : Mat4) (co : Nat → Vec3) (items : List RangeSpec)
    (uv uf : Bool) (st : SelState) (i : Nat)
    (hnd : mesh.verts.Nodup) (hi : i < mesh.edges.length) :
    ((execute mesh M co items uv true uf st).selE i = true ↔
      ∃ c ∈ extract mesh.edges mesh.verts,
        matchRanges (buildRanges items) (compVolume M co c) = true ∧
        (mesh.edges.getD i (0, 0)).1 ∈ c ∧ (mesh.edges.getD i (0, 0)).2 ∈ c) ∧
    (∀ c ∈ extract mesh.edges mesh.verts,
       matchRanges (buildRanges items) (compVolume M co c) = true →
       (mesh.edges.getD i (0, 0)).1 ∈ c → (mesh.edges.getD i (0, 0)).2 ∉ c →
       (execute mesh M co items uv true uf st).selE i = false) := by
  have key := execute_selE_iff mesh M co items uv uf st i hi
  refine ⟨key, ?_⟩
  intro c hc hm h1 h2
  by_contra hne
  simp only [Bool.not_eq_false] at hne
  obtain ⟨d, hd, _, hd1, hd2⟩ := key.1 hne
  exact h2 (comp_unique hnd hd hc hd1 h1 ▸ hd2)

/-- Witness for C4 at the demo mesh, its edge 0 and an unbounded range. -/
theorem edge_mask_spec_witness :
    demoMesh.verts.Nodup ∧ 0 < demoMesh.edges.length ∧
    (((execute demoMesh idM zeroCo demoItems true true true stFalse).selE 0 = true ↔
      ∃ c ∈ extract demoMesh.edges demoMesh.verts,
        matchRanges (buildRanges demoItems) (compVolume idM zeroCo c) = true ∧
        (demoMesh.edges.getD 0 (0, 0)).1 ∈ c ∧ (demoMesh.edges.getD 0 (0, 0)).2 ∈ c) ∧
     (∀ c ∈ extract demoMesh.edges demoMesh.verts,
        matchRanges (buildRanges demoItems) (compVolume idM zeroCo c) = true →
        (demoMesh.edges.getD 0 (0, 0)).1 ∈ c → (demoMesh.edges.getD 0 (0, 0)).2 ∉ c →
        (execute demoMesh idM zeroCo demoItems true true true stFalse).selE 0 = false)) :=
  ⟨by decide, by decide,
    edge_mask_spec demoMesh idM zeroCo demoItems true true stFalse 0 (by decide) (by decide)⟩

/-- C5: with face granularity enabled, a face of the mesh is selected iff
all of its vertices lie in one matched component; in particular, when the
item list contains a range with both bounds disabled, a face is selected
iff all its vertices lie in one component. -/
theorem face_mask_spec (mesh : Mesh) (M : Mat4) (co : Nat → Vec3) (items : List RangeSpec)
    (uv ue : Bool) (st : SelState) (j : Nat) (hj : j < mesh.faces.length) :
    ((execute mesh M co items uv ue true st).selF j = true ↔
      ∃ c ∈ extract mesh.edges mesh.verts,
        matchRanges (buildRanges items) (compVolume M co c) = true ∧
        ∀ v ∈ mesh.faces.getD j [], v ∈ c) ∧
    (∀ r ∈ items, r.use_min = false → r.use_max = false →
      ((execute mesh M co items uv ue true st).selF j = true ↔
        ∃ c ∈ extract mesh.edges mesh.verts, ∀ v ∈ mesh.faces.getD j [], v ∈ c)) := by
  have key : (execute mesh M co items uv ue true st).selF j = true ↔
      ∃ c ∈ extract mesh.edges mesh.verts,
        matchRanges (buildRanges items) (compVolume M co c) = true ∧
        ∀ v ∈ mesh.faces.getD j [], v ∈ c := by
    rw [execute_selF]
    rw [if_pos ⟨rfl, hj⟩]
    simp only [Bool.false_or, Bool.true_and, hj, decide_True, List.any_eq_true,
      Bool.and_eq_true, List.all_eq_true, decide_eq_true_eq]
  refine ⟨key, ?_⟩
  intro r hr h1 h2
  rw [key]
  constructor
  · rintro ⟨c, hc, _, hv⟩
    exact ⟨c, hc, hv⟩
  · rintro ⟨c, hc, hv⟩
    refine ⟨c, hc, ?_, hv⟩
    rw [matchRanges_build_iff]
    refine ⟨r, hr, ?_, ?_⟩
    · rw [h1]
      simp
    · rw [h2]
      simp

/-- Witness for C5 at the demo mesh, its face 0 and an unbounded range. -/
theorem face_mask_spec_witness :
    0 < demoMesh.faces.length ∧
    (((execute demoMesh idM zeroCo demoItems true true true stFalse).selF 0 = true ↔
      ∃ c ∈ extract demoMesh.edges demoMesh.verts,
        matchRanges (buildRanges demoItems) (compVolume idM zeroCo c) = true ∧
        ∀ v ∈ demoMesh.faces.getD 0 [], v ∈ c) ∧
     (∀ r ∈ demoItems, r.use_min = false → r.use_max = false →
       ((execute demoMesh idM zeroCo demoItems true true true stFalse).selF 0 = true ↔
         ∃ c ∈ extract demoMesh.edges demoMesh.verts,
           ∀ v ∈ demoMesh.faces.getD 0 [], v ∈ c))) :=
  ⟨by decide,
    face_mask_spec demoMesh idM zeroCo demoItems true true stFalse 0 (by decide)⟩

/-- C6: for each enabled granularity the resulting mask is a full overwrite,
independent of the prior selection state on the mesh's elements; for each
disabled granularity the prior mask is left unchanged everywhere. -/
theorem overwrite_frame_spec (mesh : Mesh) (M : Mat4) (co : Nat → Vec3)
    (items : List RangeSpec) (uv ue uf : Bool) (st st' : SelState) :
    (uv = true → ∀ x ∈ mesh.verts,
       (execute mesh M co items uv ue uf st).selV x =
       (execute mesh M co items uv ue uf st').selV x) ∧
    (ue = true → ∀ i < mesh.edges.length,
       (execute mesh M co items uv ue uf st).selE i =
       (execute mesh M co items uv ue uf st').selE i) ∧
    (uf = true → ∀ j < mesh.faces.length,
       (execute mesh M co items uv ue uf st).selF j =
       (execute mesh M co items uv ue uf st').selF j) ∧
    (uv = false → ∀ x, (execute mesh M co items uv ue uf st).selV x = st.selV x) ∧
    (ue = false → ∀ i, (execute mesh M co items uv ue uf st).selE i = st.selE i) ∧
    (uf = false → ∀ j, (execute mesh M co items uv ue uf st).selF j = st.selF j) := by
  refine ⟨?_, ?_, ?_, ?_, ?_, ?_⟩
  · intro h x hx
    rw [execute_selV, execute_selV, if_pos ⟨h, hx⟩, if_pos ⟨h, hx⟩]
  · intro h i hi
    rw [execute_selE, execute_selE, if_pos ⟨h, hi⟩, if_pos ⟨h, hi⟩]
  · intro h j hj
    rw [execute_selF, execute_selF, if_pos ⟨h, hj⟩, if_pos ⟨h, hj⟩]
  · intro h x
    rw [execute_selV, h]
    simp
  · intro h i
    rw [execute_selE, h]
    simp
  · intro h j
    rw [execute_selF, h]
    simp

/-- Witness for C6 at the demo mesh with opposite prior states. -/
theorem overwrite_frame_spec_witness :
    (true = true → ∀ x ∈ demoMesh.verts,
       (execute demoMesh idM zeroCo demoItems true false false stTrue).selV x =
       (execute demoMesh idM zeroCo demoItems true false false stFalse).selV x) ∧
    (false = true → ∀ i < demoMesh.edges.length,
       (execute demoMesh idM zeroCo demoItems true false false stTrue).selE i =
       (execute demoMesh idM zeroCo demoItems true false false stFalse).selE i) ∧
    (false = true → ∀ j < demoMesh.faces.length,
       (execute demoMesh idM zeroCo demoItems true false false stTrue).selF j =
       (execute demoMesh idM zeroCo demoItems true false false stFalse).selF j) ∧
    (true = false → ∀ x,
       (execute demoMesh idM zeroCo demoItems true false false stTrue).selV x =
       stTrue.selV x) ∧
    (false = false → ∀ i,
       (execute demoMesh idM zeroCo demoItems true false false stTrue).selE i =
       stTrue.selE i) ∧
    (false = false → ∀ j,
       (execute demoMesh idM zeroCo demoItems true false false stTrue).selF j =
       stTrue.selF j) :=
  overwrite_frame_spec demoMesh idM zeroCo demoItems true false false stTrue stFalse

/-- C7: a range with both bounds enabled and `min_value > max_value` is
skipped for every volume (its min and max checks cannot both pass), so the
scan just moves on to the remaining ranges, and such a range alone matches
nothing; the matcher is a total function, so the call completes without
error. -/
theorem inverted_range_never_matches (mn mx : ℚ) (h : mx < mn) :
    (∀ (vol : ℚ) (rest : List (Option ℚ × Option ℚ)),
       matchRanges ((some mn, some mx) :: rest) vol = matchRanges rest vol) ∧
    (∀ r : RangeSpec, r.use_min = true → r.use_max = true →
       r.min_value = mn → r.max_value = mx →
       ∀ (rest : List RangeSpec) (vol : ℚ),
         matchRanges (buildRanges (r :: rest)) vol = matchRanges (buildRanges rest) vol) ∧
    (∀ vol : ℚ, matchRanges [(some mn, some mx)] vol = false) := by
  have key : ∀ (vol : ℚ) (rest : List (Option ℚ × Option ℚ)),
      matchRanges ((some mn, some mx) :: rest) vol = matchRanges rest vol := by
    intro vol rest
    rw [matchRanges]
    by_cases h1 : vol < mn
    · rw [if_pos]
      simp [belowMin, h1]
    · rw [if_neg, if_pos]
      · simp [aboveMax]
        exact lt_of_lt_of_le h (not_lt.1 h1)
      · simp [belowMin, h1]
  refine ⟨key, ?_, ?_⟩
  · intro r h1 h2 h3 h4 rest vol
    have : buildRanges (r :: rest) = (some mn, some mx) :: buildRanges rest := by
      simp [buildRanges, h1, h2, h3, h4]
    rw [this, key]
  · intro vol
    rw [key]
    rfl

/-- Witness for C7 at the inverted range min 2, max 1. -/
theorem inverted_range_never_matches_witness :
    (1 : ℚ) < 2 ∧
    ((∀ (vol : ℚ) (rest : List (Option ℚ × Option ℚ)),
        matchRanges ((some 2, some 1) :: rest) vol = matchRanges rest vol) ∧
     (∀ r : RangeSpec, r.use_min = true → r.use_max = true →
        r.min_value = 2 → r.max_value = 1 →
        ∀ (rest : List RangeSpec) (vol : ℚ),
          matchRanges (buildRanges (r :: rest)) vol = matchRanges (buildRanges rest) vol) ∧
     (∀ vol : ℚ, matchRanges [(some 2, some 1)] vol = false)) :=
  ⟨by decide, inverted_range_never_matches 2 1 (by decide)⟩

/-- C8: the output masks do not depend on the order in which the traversal
pops unvisited vertices: running the selection on the same mesh with its
vertex list arbitrarily permuted (edges, faces, transform, ranges, flags
and prior state identical) produces the identical selection state, so two
invocations on identical inputs agree as well. -/
theorem traversal_order_invariance (mesh mesh' : Mesh)
    (hedges : mesh'.edges = mesh.edges) (hfaces : mesh'.faces = mesh.faces)
    (hperm : mesh.verts.Perm mesh'.verts)
    (hnd : mesh.verts.Nodup)
    (hE : ∀ p ∈ mesh.edges, p.1 ∈ mesh.verts ∧ p.2 ∈ mesh.verts)
    (M : Mat4) (co : Nat → Vec3) (items : List RangeSpec) (uv ue uf : Bool) (st : SelState) :
    execute mesh M co items uv ue uf st = execute mesh' M co items uv ue uf st := by
  have hnd' : mesh'.verts.Nodup := hperm.nodup hnd
  have hVV' : ∀ x, x ∈ mesh.verts ↔ x ∈ mesh'.verts := fun x => hperm.mem_iff
  have hE' : ∀ p ∈ mesh.edges, p.1 ∈ mesh'.verts ∧ p.2 ∈ mesh'.verts := by
    intro p hp
    obtain ⟨a, b⟩ := hE p hp
    exact ⟨(hVV' p.1).1 a, (hVV' p.2).1 b⟩
  have hany : ∀ (R : List (Option ℚ × Option ℚ)) (g : List Nat → Bool),
      (∀ c c', (∀ y, y ∈ c ↔ y ∈ c') → g c = g c') →
      (extract mesh.edges mesh.verts).any
        (fun c => matchRanges R (compVolume M co c) && g c) =
      (extract mesh.edges mesh'.verts).any
        (fun c => matchRanges R (compVolume M co c) && g c) := by
    intro R g hg
    refine bool_eq_of_iff
      ⟨any_comp_imp mesh.edges mesh.verts mesh'.verts hnd hnd' hE hVV' M co R g hg, ?_⟩
    exact any_comp_imp mesh.edges mesh'.verts mesh.verts hnd' hnd hE'
      (fun x => (hVV' x).symm) M co R g hg
  refine selState_ext ?_ ?_ ?_
  · intro x
    rw [execute_selV, execute_selV, hedges]
    rw [hany (buildRanges items) (fun c => decide (x ∈ c))
      (fun c c' hcc' => decide_eq_decide.mpr (hcc' x))]
    rw [if_congr (and_congr_right fun _ => hVV' x) rfl rfl]
  · intro i
    rw [execute_selE, execute_selE, hedges]
    rw [hany (buildRanges items)
      (fun c => edgeBothIn c (mesh.edges.getD i (0, 0)))
      (fun c c' hcc' => edgeBothIn_congr _ hcc')]
  · intro j
    rw [execute_selF, execute_selF, hedges, hfaces]
    rw [hany (buildRanges items)
      (fun c => (mesh.faces.getD j []).all (fun v => decide (v ∈ c)))
      (fun c c' hcc' => faceAll_congr _ hcc')]

/-- Witness for C8: the demo mesh with its vertex list reversed. -/
theorem traversal_order_invariance_witness :
    (⟨[2, 1, 0], [(0, 1)], [[0, 1]]⟩ : Mesh).edges = demoMesh.edges ∧
    (⟨[2, 1, 0], [(0, 1)], [[0, 1]]⟩ : Mesh).faces = demoMesh.faces ∧
    demoMesh.verts.Perm [2, 1, 0] ∧
    demoMesh.verts.Nodup ∧
    (∀ p ∈ demoMesh.edges, p.1 ∈ demoMesh.verts ∧ p.2 ∈ demoMesh.verts) ∧
    execute demoMesh idM zeroCo demoItems true true true stFalse =
      execute ⟨[2, 1, 0], [(0, 1)], [[0, 1]]⟩ idM zeroCo demoItems true true true stFalse :=
  ⟨rfl, rfl, by decide, by decide, by decide,
    traversal_order_invariance demoMesh ⟨[2, 1, 0], [(0, 1)], [[0, 1]]⟩ rfl rfl
      (by decide) (by decide) (by decide) idM zeroCo demoItems true true true stFalse⟩

/-- C9: first-match-wins evaluation is output-equivalent to existential
any-match evaluation, both at the matcher level and for the whole selection
core. -/
theorem first_match_equiv_any :
    (∀ (R : List (Option ℚ × Option ℚ)) (vol : ℚ), matchRanges R vol = anyMatch R vol) ∧
    (∀ (mesh : Mesh) (M : Mat4) (co : Nat → Vec3) (items : List RangeSpec)
       (uv ue uf : Bool) (st : SelState),
       execute mesh M co items uv ue uf st = executeAny mesh M co items uv ue uf st) := by
  refine ⟨matchRanges_eq_anyMatch, ?_⟩
  intro mesh M co items uv ue uf st
  rw [execute, executeAny, selectComps, selectCompsAny]
  simp only [matchRanges_eq_anyMatch]

/-- Witness for C9 at the demo mesh. -/
theorem first_match_equiv_any_witness :
    matchRanges (buildRanges demoItems) 0 = anyMatch (buildRanges demoItems) 0 ∧
    execute demoMesh idM zeroCo demoItems true true true stFalse =
      executeAny demoMesh idM zeroCo demoItems true true true stFalse :=
  ⟨first_match_equiv_any.1 (buildRanges demoItems) 0,
   first_match_equiv_any.2 demoMesh idM zeroCo demoItems true true true stFalse⟩

/-- C10: both endpoints of every mesh edge always lie in one extracted
component, so with edge granularity enabled an edge is selected iff the
component containing its endpoints is matched. -/
theorem edge_same_component_spec (mesh : Mesh)
    (hnd : mesh.verts.Nodup)
    (hE : ∀ p ∈ mesh.edges, p.1 ∈ mesh.verts ∧ p.2 ∈ mesh.verts) :
    (∀ p ∈ mesh.edges, ∃ c ∈ extract mesh.edges mesh.verts, p.1 ∈ c ∧ p.2 ∈ c) ∧
    (∀ (M : Mat4) (co : Nat → Vec3) (items : List RangeSpec) (uv uf : Bool) (st : SelState)
       (i : Nat), i < mesh.edges.length →
       ∀ c ∈ extract mesh.edges mesh.verts, (mesh.edges.getD i (0, 0)).1 ∈ c →
       ((execute mesh M co items uv true uf st).selE i = true ↔
         matchRanges (buildRanges items) (compVolume M co c) = true)) := by
  have part1 : ∀ p ∈ mesh.edges, ∃ c ∈ extract mesh.edges mesh.verts, p.1 ∈ c ∧ p.2 ∈ c := by
    intro p hp
    obtain ⟨c, hc, hxc⟩ :=
      ((extract_spec mesh.edges mesh.verts hnd).1 p.1).1 (hE p hp).1
    exact ⟨c, hc, hxc, mem_comp_of_reach hnd hE hc hxc p.2
      (Relation.ReflTransGen.single (adjP_of_mem hp))⟩
  refine ⟨part1, ?_⟩
  intro M co items uv uf st i hi c hc h1
  have hkey := execute_selE_iff mesh M co items uv uf st i hi
  constructor
  · intro hsel
    obtain ⟨d, hd, hm, hd1, _⟩ := hkey.1 hsel
    rw [comp_unique hnd hc hd h1 hd1]
    exact hm
  · intro hm
    obtain ⟨d, hd, hd1, hd2⟩ := part1 _ (getD_mem_of_lt hi)
    have hcd : c = d := comp_unique hnd hc hd h1 hd1
    exact hkey.2 ⟨c, hc, hm, h1, hcd ▸ hd2⟩

/-- Witness for C10 at the demo mesh. -/
theorem edge_same_component_spec_witness :
    demoMesh.verts.Nodup ∧
    (∀ p ∈ demoMesh.edges, p.1 ∈ demoMesh.verts ∧ p.2 ∈ demoMesh.verts) ∧
    ((∀ p ∈ demoMesh.edges, ∃ c ∈ extract demoMesh.edges demoMesh.verts,
        p.1 ∈ c ∧ p.2 ∈ c) ∧
     (∀ (M : Mat4) (co : Nat → Vec3) (items : List RangeSpec) (uv uf : Bool) (st : SelState)
        (i : Nat), i < demoMesh.edges.length →
        ∀ c ∈ extract demoMesh.edges demoMesh.verts, (demoMesh.edges.getD i (0, 0)).1 ∈ c →
        ((execute demoMesh M co items uv true uf st).selE i = true ↔
          matchRanges (buildRanges items) (compVolume M co c) = true))) :=
  ⟨by decide, by decide, edge_same_component_spec demoMesh (by decide) (by decide)⟩

end VolumeSelect
